import Mathlib

/-!
Verification of the `abc3660170/eslint` scaffolding tool against its
natural-language specification.  The JavaScript sources are shallowly
embedded: pure computations become Lean functions, in-place mutation is
modelled by explicit state passing, and the XML workspace document is
modelled as a tree of components and leaf elements mirroring the shape
the watcher code manipulates through its selectors.
-/

/-! ## Severity normalizer (src/lib/config-ops.js) -/

/-- A rule value as it appears in `config.rules`: a numeric severity,
a symbolic severity string, or an array whose head is a severity. -/
inductive RuleVal where
  | num (n : Int)
  | str (s : String)
  | arr (l : List RuleVal)

/-- The fixed severity table `RULE_SEVERITY_STRINGS` from config-ops.js. -/
def RULE_SEVERITY_STRINGS : List String := ["off", "warn", "error"]

/-- JS `RULE_SEVERITY_STRINGS[n] || RULE_SEVERITY_STRINGS[0]`: index into the
table, falling back to the first entry when the index is out of range.
(None of the table entries is empty, so `||` only fires on `undefined`.) -/
def severityAt (n : Int) : String :=
  match (if 0 ≤ n then RULE_SEVERITY_STRINGS.get? n.toNat else none) with
  | some s => s
  | none => RULE_SEVERITY_STRINGS.headD ""

/-- One iteration of the `normalizeToStrings` loop body on a single rule value. -/
def normalizeRuleConfig (v : RuleVal) : RuleVal :=
  match v with
  | .num n => .str (severityAt n)
  | .arr (.num n :: rest) => .arr (.str (severityAt n) :: rest)
  | other => other

/-- `normalizeToStrings` over the `rules` mapping (keys are untouched,
every value goes through the loop body). -/
def normalizeRules (rules : List (String × RuleVal)) : List (String × RuleVal) :=
  rules.map (fun p => (p.1, normalizeRuleConfig p.2))

theorem severityAt_in_range (n : Int) (h0 : 0 ≤ n) (h3 : n < 3) :
    severityAt n = RULE_SEVERITY_STRINGS.getD n.toNat "" := by
  unfold severityAt
  rw [if_pos h0]
  have hlt : n.toNat < RULE_SEVERITY_STRINGS.length := by
    simp only [RULE_SEVERITY_STRINGS, List.length]
    omega
  rw [List.get?_eq_get hlt]
  simp [List.getD_eq_getElem?_getD, List.getElem?_eq_getElem hlt]

theorem severityAt_out_of_range (n : Int) (h : ¬(0 ≤ n ∧ n < 3)) :
    severityAt n = "off" := by
  unfold severityAt
  by_cases h0 : 0 ≤ n
  · have h3 : 3 ≤ n := by omega
    have hge : RULE_SEVERITY_STRINGS.length ≤ n.toNat := by
      simp only [RULE_SEVERITY_STRINGS, List.length]
      omega
    rw [if_pos h0, List.get?_eq_none.mpr hge]
    rfl
  · rw [if_neg h0]
    rfl

theorem lookup_normalizeRules (rules : List (String × RuleVal)) (k : String) :
    (normalizeRules rules).lookup k = (rules.lookup k).map normalizeRuleConfig := by
  induction rules with
  | nil => rfl
  | cons p rest ih =>
    simp only [normalizeRules, List.map, List.lookup]
    by_cases hk : k == p.1
    · simp [hk]
    · simp only [hk]
      simpa [normalizeRules] using ih

/-- C4: for every key of the rules mapping, normalizing replaces a numeric
value `n` in {0,1,2} with the severity at index `n` of the fixed sequence
[off, warn, error], replaces any other numeric value with "off", applies the
same replacement to only the first element of an array value whose first
element is a number, and leaves string values unchanged. -/
theorem C4_normalize_to_strings :
    (∀ (rules : List (String × RuleVal)) (k : String) (v : RuleVal),
      rules.lookup k = some v →
      (normalizeRules rules).lookup k = some (normalizeRuleConfig v))
    ∧ (∀ n : Int, 0 ≤ n → n < 3 →
        normalizeRuleConfig (.num n) = .str (RULE_SEVERITY_STRINGS.getD n.toNat ""))
    ∧ (∀ n : Int, ¬(0 ≤ n ∧ n < 3) → normalizeRuleConfig (.num n) = .str "off")
    ∧ (∀ (n : Int) (rest : List RuleVal), 0 ≤ n → n < 3 →
        normalizeRuleConfig (.arr (.num n :: rest)) =
          .arr (.str (RULE_SEVERITY_STRINGS.getD n.toNat "") :: rest))
    ∧ (∀ (n : Int) (rest : List RuleVal), ¬(0 ≤ n ∧ n < 3) →
        normalizeRuleConfig (.arr (.num n :: rest)) = .arr (.str "off" :: rest))
    ∧ (∀ s : String, normalizeRuleConfig (.str s) = .str s) := by
  refine ⟨?_, ?_, ?_, ?_, ?_, ?_⟩
  · intro rules k v hv
    rw [lookup_normalizeRules, hv]
    rfl
  · intro n h0 h3
    simp [normalizeRuleConfig, severityAt_in_range n h0 h3]
  · intro n h
    simp [normalizeRuleConfig, severityAt_out_of_range n h]
  · intro n rest h0 h3
    simp [normalizeRuleConfig, severityAt_in_range n h0 h3]
  · intro n rest h
    simp [normalizeRuleConfig, severityAt_out_of_range n h]
  · intro s
    rfl

/-- Witness for C4 at concrete inputs. -/
theorem C4_normalize_to_strings_witness :
    [("semi", RuleVal.num 1)].lookup "semi" = some (RuleVal.num 1)
    ∧ (normalizeRules [("semi", RuleVal.num 1)]).lookup "semi" =
        some (normalizeRuleConfig (RuleVal.num 1))
    ∧ normalizeRuleConfig (RuleVal.num 1) =
        .str (RULE_SEVERITY_STRINGS.getD (Int.toNat 1) "")
    ∧ normalizeRuleConfig (RuleVal.num 5) = .str "off"
    ∧ normalizeRuleConfig (.arr [RuleVal.num 2, RuleVal.str "always"]) =
        .arr [.str (RULE_SEVERITY_STRINGS.getD (Int.toNat 2) ""), RuleVal.str "always"]
    ∧ normalizeRuleConfig (.arr [RuleVal.num (-1), RuleVal.str "x"]) =
        .arr [.str "off", RuleVal.str "x"]
    ∧ normalizeRuleConfig (RuleVal.str "warn") = RuleVal.str "warn" :=
  ⟨rfl,
   C4_normalize_to_strings.1 [("semi", RuleVal.num 1)] "semi" (RuleVal.num 1) rfl,
   C4_normalize_to_strings.2.1 1 (by decide) (by decide),
   C4_normalize_to_strings.2.2.1 5 (by decide),
   C4_normalize_to_strings.2.2.2.1 2 [RuleVal.str "always"] (by decide) (by decide),
   C4_normalize_to_strings.2.2.2.2.1 (-1) [RuleVal.str "x"] (by decide),
   C4_normalize_to_strings.2.2.2.2.2 "warn"⟩

/-! ## Config synthesizer (src/lib/index.js, genEslintConfig) -/

/-- The answer set collected from the prompts. -/
structure Answers where
  purpose : String
  moduleType : String
  framework : String
  env : List String
  installedPrettier : Bool

/-- The `extends` field of a configuration object after the collapse step:
deleted, a bare string, or an array of preset references. -/
inductive ExtendsVal where
  | removed
  | single (s : String)
  | multi (l : List String)
deriving DecidableEq

/-- The `parserOptions` subobject built by `genEslintConfig`. -/
structure ParserOptions where
  ecmaVersion : Int
  sourceType : Option String
  ecmaFeaturesJsx : Bool
deriving DecidableEq

/-- The configuration object produced by `genEslintConfig`. -/
structure EslintConfig where
  rules : List (String × RuleVal)
  env : List (String × Bool)
  parserOptions : ParserOptions
  globals : List (String × String)
  extendsVal : ExtendsVal
  plugins : Option (List String)

/-- The value of `config.extends` just before the collapse step, following the
mutation order of the source: initialised to `['fee-base']`, the Vue preset
pushed, `'eslint:recommended'` unshifted for purpose `problems`, `'prettier'`
pushed when prettier is installed. -/
def genExtList (a : Answers) : List String :=
  let ext := ["fee-base"]
  let ext := if a.framework == "vue" then ext ++ ["plugin:vue/essential"] else ext
  let ext := if a.purpose == "problems" then "eslint:recommended" :: ext else ext
  if a.installedPrettier then ext ++ ["prettier"] else ext

/-- The `config.plugins` field: assigned for react/vue, extended with
`'prettier'` (creating the array if absent) when prettier is installed. -/
def genPlugins (a : Answers) : Option (List String) :=
  let ps : Option (List String) :=
    if a.framework == "react" then some ["react"]
    else if a.framework == "vue" then some ["vue"] else none
  if a.installedPrettier then some (ps.getD [] ++ ["prettier"]) else ps

/-- The explicit `rules` entries set by `genEslintConfig`. -/
def genRules (a : Answers) : List (String × RuleVal) :=
  if a.installedPrettier then [("prettier/prettier", .str "error")] else []

/-- The `env` mapping: es6 unconditionally, commonjs for that module type,
then every selected target environment. -/
def genEnv (a : Answers) : List (String × Bool) :=
  let e := [("es6", true)]
  let e := if a.moduleType == "commonjs" then e ++ [("commonjs", true)] else e
  e ++ a.env.map (fun x => (x, true))

/-- The collapse step of `genEslintConfig` (lines 64-69 of src/lib/index.js):
an empty array deletes the field, a singleton collapses to the bare string,
anything longer stays an array. -/
def collapseExt (l : List String) : ExtendsVal :=
  if l.length = 0 then .removed
  else if l.length = 1 then .single (l.headD "")
  else .multi l

/-- `ConfigOps.normalizeToStrings` applied to a whole configuration object:
only the `rules` mapping is rewritten. -/
def normalizeToStrings (c : EslintConfig) : EslintConfig :=
  { c with rules := normalizeRules c.rules }

/-- `genEslintConfig`: builds the configuration object from an answer set,
collapses `extends`, and runs the severity normalizer. -/
def genEslintConfig (a : Answers) : EslintConfig :=
  normalizeToStrings
    { rules := genRules a
      env := genEnv a
      parserOptions :=
        { ecmaVersion := 2018
          sourceType := if a.moduleType == "esm" then some "module" else none
          ecmaFeaturesJsx := a.framework == "react" }
      globals := [("Atomics", "readonly"), ("SharedArrayBuffer", "readonly")]
      extendsVal := collapseExt (genExtList a)
      plugins := genPlugins a }

/-- C5: with purpose `problems` and prettier installed, the synthesized
`extends` value is a sequence in which `eslint:recommended` is the first
entry and `prettier` is the last, so the recommended preset precedes the
formatter-disable preset and the latter closes the sequence. -/
theorem C5_recommended_precedes_prettier (a : Answers)
    (hp : a.purpose = "problems") (hip : a.installedPrettier = true) :
    ∃ mid, (genEslintConfig a).extendsVal =
      .multi ("eslint:recommended" :: (mid ++ ["prettier"])) := by
  have hx : (genEslintConfig a).extendsVal = collapseExt (genExtList a) := rfl
  rw [hx]
  unfold genExtList
  rcases hv : a.framework == "vue"
  · refine ⟨["fee-base"], ?_⟩
    simp [hv, hp, hip, collapseExt]
  · refine ⟨["fee-base", "plugin:vue/essential"], ?_⟩
    simp [hv, hp, hip, collapseExt]

/-- Witness for C5 at a concrete answer set. -/
theorem C5_recommended_precedes_prettier_witness :
    ∃ mid, (genEslintConfig ⟨"problems", "esm", "none", ["browser"], true⟩).extendsVal =
      .multi ("eslint:recommended" :: (mid ++ ["prettier"])) :=
  C5_recommended_precedes_prettier ⟨"problems", "esm", "none", ["browser"], true⟩ rfl rfl

/-- C7: the synthesized configuration's `extends` field is the collapse of
the pre-collapse entry list, and the collapse maps an empty list to an
absent field, a singleton to the bare string, and two or more entries to
the unchanged sequence. -/
theorem C7_extends_collapse :
    (∀ a : Answers, (genEslintConfig a).extendsVal = collapseExt (genExtList a))
    ∧ (∀ l : List String,
        (l = [] → collapseExt l = .removed)
        ∧ (∀ s, l = [s] → collapseExt l = .single s)
        ∧ (2 ≤ l.length → collapseExt l = .multi l)) := by
  refine ⟨fun a => rfl, fun l => ⟨?_, ?_, ?_⟩⟩
  · intro h
    subst h
    rfl
  · intro s h
    subst h
    rfl
  · intro h
    unfold collapseExt
    rw [if_neg (by omega), if_neg (by omega)]

/-- Witness for C7 at concrete entry lists. -/
theorem C7_extends_collapse_witness :
    collapseExt [] = .removed
    ∧ collapseExt ["fee-base"] = .single "fee-base"
    ∧ collapseExt ["eslint:recommended", "fee-base"] =
        .multi ["eslint:recommended", "fee-base"] :=
  ⟨(C7_extends_collapse.2 []).1 rfl,
   (C7_extends_collapse.2 ["fee-base"]).2.1 "fee-base" rfl,
   (C7_extends_collapse.2 ["eslint:recommended", "fee-base"]).2.2 (by decide)⟩

/-- C10: every synthesized configuration carries `fee-base` in its `extends`
value (as the bare string or as an element), the pre-collapse entry list is
never empty, and the field-removal branch of the collapse is never taken. -/
theorem C10_fee_base_always_present (a : Answers) :
    genExtList a ≠ []
    ∧ "fee-base" ∈ genExtList a
    ∧ (match (genEslintConfig a).extendsVal with
       | .removed => False
       | .single s => s = "fee-base"
       | .multi l => "fee-base" ∈ l) := by
  have hx : (genEslintConfig a).extendsVal = collapseExt (genExtList a) := rfl
  unfold genExtList at hx ⊢
  rcases hv : a.framework == "vue" <;> rcases hp : a.purpose == "problems" <;>
    rcases hip : a.installedPrettier <;>
    simp [hv, hp, hip, collapseExt] at hx ⊢ <;> rw [hx] <;> simp

/-! ## Module list resolver (src/lib/index.js, getModulesList) -/

/-- Boolean prefix test on character lists. -/
def isPrefixOfB : List Char → List Char → Bool
  | [], _ => true
  | _ :: _, [] => false
  | a :: as, b :: bs => a == b && isPrefixOfB as bs

/-- Does `sub` occur as a contiguous run anywhere in `s`?  This is the
semantics of JS `s.indexOf(sub) !== -1`. -/
def hasSubAux (sub : List Char) : List Char → Bool
  | [] => isPrefixOfB sub []
  | c :: rest => isPrefixOfB sub (c :: rest) || hasSubAux sub rest

/-- JS `s.indexOf(sub) !== -1` on strings. -/
def strContains (s sub : String) : Bool := hasSubAux sub.data s.data

/-- Assigning `modules[k] = v` in a JS object: a fresh key is appended at
the end of the key order, an existing key keeps its position. -/
def insertKey (ks : List String) (k : String) : List String :=
  if k ∈ ks then ks else ks ++ [k]

/-- The fixed `externalModules` table of getModulesList. -/
def externalModules : List String := ["prettier"]

/-- The plugins loop of getModulesList. -/
def addPluginModules (ks : List String) (plugins : List String) : List String :=
  plugins.foldl (fun ks p =>
    let ks2 := insertKey ks ("eslint-plugin-" ++ p)
    if p ∈ externalModules then insertKey ks2 p else ks2) ks

/-- The guard of the extends loop:
`extend.indexOf('eslint:') === -1 && extend.indexOf('plugin:') === -1`. -/
def extGuard (e : String) : Bool :=
  !(strContains e "eslint:") && !(strContains e "plugin:")

/-- The extends loop of getModulesList. -/
def addExtendModules (ks : List String) (l : List String) : List String :=
  l.foldl (fun ks e => if extGuard e then insertKey ks ("eslint-config-" ++ e) else ks) ks

/-- `getModulesList`: plugin packages, config packages for non-reserved
extends entries (only when extends is still an array), the base linter
package according to the flag, all tagged `@latest` in insertion order. -/
def getModulesList (cfg : EslintConfig) (installESLint : Bool) : List String :=
  let ks : List String := []
  let ks := match cfg.plugins with
    | some ps => addPluginModules ks ps
    | none => ks
  let ks := match cfg.extendsVal with
    | .multi l => addExtendModules ks l
    | _ => ks
  let ks := if installESLint = false then ks.filter (fun k => !(k == "eslint"))
            else insertKey ks "eslint"
  ks.map (fun n => n ++ "@latest")

theorem strData_append (a b : String) : (a ++ b).data = a.data ++ b.data := by
  cases a
  cases b
  rfl

theorem strEq_of_data {a b : String} (h : a.data = b.data) : a = b := by
  cases a
  cases b
  exact congrArg String.mk h

theorem strAppend_right_cancel {a b c : String} (h : a ++ c = b ++ c) : a = b := by
  have hd : a.data ++ c.data = b.data ++ c.data := by
    rw [← strData_append, ← strData_append, h]
  have hl : a.data.length = b.data.length := by
    have := congrArg List.length hd
    simp only [List.length_append] at this
    omega
  exact strEq_of_data (List.append_inj hd hl).1

theorem strAppend_left_cancel {a b c : String} (h : c ++ a = c ++ b) : a = b := by
  have hd : c.data ++ a.data = c.data ++ b.data := by
    rw [← strData_append, ← strData_append, h]
  exact strEq_of_data (List.append_inj hd rfl).2

theorem strAppend_assoc (a b c : String) : (a ++ b) ++ c = a ++ (b ++ c) := by
  apply strEq_of_data
  simp only [strData_append, List.append_assoc]

theorem cfgKey_ne_pluginKey (e p : String) :
    "eslint-config-" ++ e ≠ "eslint-plugin-" ++ p := by
  intro h
  have hd : ("eslint-config-" ++ e).data = ("eslint-plugin-" ++ p).data := by rw [h]
  rw [strData_append, strData_append] at hd
  have := (List.append_inj hd (by decide)).1
  exact absurd this (by decide)

theorem cfgKey_ne_prettier (e : String) : "eslint-config-" ++ e ≠ "prettier" := by
  intro h
  have hd := congrArg String.data h
  rw [strData_append] at hd
  have hlen := congrArg List.length hd
  simp [List.length_append] at hlen

theorem cfgKey_ne_eslint (e : String) : "eslint-config-" ++ e ≠ "eslint" := by
  intro h
  have hd := congrArg String.data h
  rw [strData_append] at hd
  have hlen := congrArg List.length hd
  simp [List.length_append] at hlen

theorem mem_insertKey {x k : String} {ks : List String} :
    x ∈ insertKey ks k ↔ x ∈ ks ∨ x = k := by
  unfold insertKey
  by_cases h : k ∈ ks
  · rw [if_pos h]
    constructor
    · exact Or.inl
    · rintro (hx | rfl)
      · exact hx
      · exact h
  · rw [if_neg h]
    simp

theorem mem_addExtendModules {x : String} (l : List String) (ks : List String) :
    x ∈ addExtendModules ks l ↔
      x ∈ ks ∨ ∃ e ∈ l, extGuard e = true ∧ x = "eslint-config-" ++ e := by
  induction l generalizing ks with
  | nil => simp [addExtendModules]
  | cons e es ih =>
    show x ∈ addExtendModules (if extGuard e then insertKey ks ("eslint-config-" ++ e) else ks) es ↔ _
    rw [ih]
    by_cases hg : extGuard e
    · rw [if_pos hg, mem_insertKey]
      constructor
      · rintro ((hx | rfl) | ⟨e1, he1, hge1, rfl⟩)
        · exact Or.inl hx
        · exact Or.inr ⟨e, List.mem_cons_self e es, hg, rfl⟩
        · exact Or.inr ⟨e1, List.mem_cons_of_mem e he1, hge1, rfl⟩
      · rintro (hx | ⟨e1, he1, hge1, rfl⟩)
        · exact Or.inl (Or.inl hx)
        · rcases List.mem_cons.mp he1 with rfl | he1
          · exact Or.inl (Or.inr rfl)
          · exact Or.inr ⟨e1, he1, hge1, rfl⟩
    · rw [if_neg hg]
      constructor
      · rintro (hx | ⟨e1, he1, hge1, rfl⟩)
        · exact Or.inl hx
        · exact Or.inr ⟨e1, List.mem_cons_of_mem e he1, hge1, rfl⟩
      · rintro (hx | ⟨e1, he1, hge1, rfl⟩)
        · exact Or.inl hx
        · rcases List.mem_cons.mp he1 with rfl | he1
          · exact absurd hge1 (by simpa using hg)
          · exact Or.inr ⟨e1, he1, hge1, rfl⟩

theorem mem_addPluginModules {x : String} (ps : List String) (ks : List String) :
    x ∈ addPluginModules ks ps ↔
      x ∈ ks ∨ ∃ p ∈ ps, x = "eslint-plugin-" ++ p ∨ (p ∈ externalModules ∧ x = p) := by
  induction ps generalizing ks with
  | nil => simp [addPluginModules]
  | cons p rest ih =>
    show x ∈ addPluginModules
        (if p ∈ externalModules then insertKey (insertKey ks ("eslint-plugin-" ++ p)) p
         else insertKey ks ("eslint-plugin-" ++ p)) rest ↔ _
    rw [ih]
    by_cases hp : p ∈ externalModules
    · rw [if_pos hp, mem_insertKey, mem_insertKey]
      constructor
      · rintro (((hx | rfl) | rfl) | ⟨p1, hp1, h1⟩)
        · exact Or.inl hx
        · exact Or.inr ⟨_, List.mem_cons_self _ _, Or.inl rfl⟩
        · exact Or.inr ⟨_, List.mem_cons_self _ _, Or.inr ⟨hp, rfl⟩⟩
        · exact Or.inr ⟨p1, List.mem_cons_of_mem _ hp1, h1⟩
      · rintro (hx | ⟨p1, hp1, h1⟩)
        · exact Or.inl (Or.inl (Or.inl hx))
        · rcases List.mem_cons.mp hp1 with rfl | hp1
          · rcases h1 with rfl | ⟨_, rfl⟩
            · exact Or.inl (Or.inl (Or.inr rfl))
            · exact Or.inl (Or.inr rfl)
          · exact Or.inr ⟨p1, hp1, h1⟩
    · rw [if_neg hp, mem_insertKey]
      constructor
      · rintro ((hx | rfl) | ⟨p1, hp1, h1⟩)
        · exact Or.inl hx
        · exact Or.inr ⟨_, List.mem_cons_self _ _, Or.inl rfl⟩
        · exact Or.inr ⟨p1, List.mem_cons_of_mem _ hp1, h1⟩
      · rintro (hx | ⟨p1, hp1, h1⟩)
        · exact Or.inl (Or.inl hx)
        · rcases List.mem_cons.mp hp1 with rfl | hp1
          · rcases h1 with rfl | ⟨hm, rfl⟩
            · exact Or.inl (Or.inr rfl)
            · exact absurd hm hp
          · exact Or.inr ⟨p1, hp1, h1⟩

theorem extGuard_eq_true (e : String) :
    extGuard e = true ↔
      (strContains e "eslint:" = false ∧ strContains e "plugin:" = false) := by
  simp [extGuard]

theorem key_mem_final (ks : List String) (x : String) (hxe : x ≠ "eslint") (flag : Bool) :
    (x ++ "@latest") ∈
      (if flag = false then ks.filter (fun k => !(k == "eslint"))
       else insertKey ks "eslint").map (fun n => n ++ "@latest") ↔ x ∈ ks := by
  constructor
  · intro h
    rcases List.mem_map.mp h with ⟨k, hk, hkey⟩
    have hkx : k = x := strAppend_right_cancel hkey
    subst hkx
    cases flag
    · rw [if_pos rfl] at hk
      exact (List.mem_filter.mp hk).1
    · rw [if_neg (by simp)] at hk
      rcases mem_insertKey.mp hk with hk | rfl
      · exact hk
      · exact absurd rfl hxe
  · intro h
    refine List.mem_map.mpr ⟨x, ?_, rfl⟩
    cases flag
    · rw [if_pos rfl]
      exact List.mem_filter.mpr ⟨h, by simp [hxe]⟩
    · rw [if_neg (by simp)]
      exact mem_insertKey.mpr (Or.inl h)

/-- The concrete configuration of the claim's example:
`plugins=["vue"]`, `extends=["plugin:vue/essential"]`. -/
def vueCfg : EslintConfig :=
  { rules := []
    env := [("es6", true)]
    parserOptions := ⟨2018, some "module", false⟩
    globals := []
    extendsVal := .multi ["plugin:vue/essential"]
    plugins := some ["vue"] }

/-- A configuration whose single extends entry contains a reserved marker
without beginning with it. -/
def containsNotLeadingCfg : EslintConfig :=
  { rules := []
    env := []
    parserOptions := ⟨2018, none, false⟩
    globals := []
    extendsVal := .multi ["foo-plugin:bar"]
    plugins := none }

/-- C3 counterexample: the entry `foo-plugin:bar` begins with neither
reserved prefix, so the claim requires the module
`eslint-config-foo-plugin:bar@latest` in the output, yet the code skips
the entry because `indexOf` finds `plugin:` in the middle. -/
theorem C3_counterexample :
    isPrefixOfB "eslint:".data "foo-plugin:bar".data = false
    ∧ isPrefixOfB "plugin:".data "foo-plugin:bar".data = false
    ∧ getModulesList containsNotLeadingCfg true = ["eslint@latest"]
    ∧ "eslint-config-foo-plugin:bar@latest" ∉ getModulesList containsNotLeadingCfg true := by
  refine ⟨by decide, by decide, by decide, by decide⟩

/-- C3 (amended): for a configuration whose extends value is a sequence, an
entry contributes the module `eslint-config-` + entry (tagged latest) if and
only if the entry CONTAINS neither `eslint:` nor `plugin:` anywhere (the code
tests substring containment via `indexOf`, not a prefix match); the concrete
Vue example behaves exactly as the claim states. -/
theorem C3_amended_extend_contribution :
    (∀ (cfg : EslintConfig) (l : List String) (e : String) (flag : Bool),
      cfg.extendsVal = .multi l → e ∈ l →
      ((("eslint-config-" ++ e) ++ "@latest") ∈ getModulesList cfg flag ↔
        (strContains e "eslint:" = false ∧ strContains e "plugin:" = false)))
    ∧ getModulesList vueCfg true = ["eslint-plugin-vue@latest", "eslint@latest"]
    ∧ getModulesList vueCfg false = ["eslint-plugin-vue@latest"] := by
  refine ⟨?_, by decide, by decide⟩
  intro cfg l e flag hext he
  rcases cfg with ⟨rules, env2, po, gl, ev, plugins⟩
  obtain rfl : ev = ExtendsVal.multi l := hext
  cases plugins with
  | none =>
    show (("eslint-config-" ++ e) ++ "@latest") ∈
        (if flag = false then (addExtendModules [] l).filter (fun k => !(k == "eslint"))
         else insertKey (addExtendModules [] l) "eslint").map (fun n => n ++ "@latest") ↔ _
    rw [key_mem_final _ _ (cfgKey_ne_eslint e) flag, mem_addExtendModules]
    constructor
    · rintro (hx | ⟨e1, he1, hg, heq⟩)
      · exact absurd hx (List.not_mem_nil _)
      · obtain rfl : e = e1 := strAppend_left_cancel heq
        exact (extGuard_eq_true e).mp hg
    · rintro ⟨h1, h2⟩
      exact Or.inr ⟨e, he, (extGuard_eq_true e).mpr ⟨h1, h2⟩, rfl⟩
  | some ps =>
    show (("eslint-config-" ++ e) ++ "@latest") ∈
        (if flag = false then
           (addExtendModules (addPluginModules [] ps) l).filter (fun k => !(k == "eslint"))
         else insertKey (addExtendModules (addPluginModules [] ps) l) "eslint").map
          (fun n => n ++ "@latest") ↔ _
    rw [key_mem_final _ _ (cfgKey_ne_eslint e) flag, mem_addExtendModules]
    constructor
    · rintro (hx | ⟨e1, he1, hg, heq⟩)
      · rcases (mem_addPluginModules ps []).mp hx with h0 | ⟨p, _, hcase⟩
        · exact absurd h0 (List.not_mem_nil _)
        · rcases hcase with heq2 | ⟨hpm, heq2⟩
          · exact absurd heq2 (cfgKey_ne_pluginKey e p)
          · have hpp : p = "prettier" := by simpa [externalModules] using hpm
            rw [hpp] at heq2
            exact absurd heq2 (cfgKey_ne_prettier e)
      · obtain rfl : e = e1 := strAppend_left_cancel heq
        exact (extGuard_eq_true e).mp hg
    · rintro ⟨h1, h2⟩
      exact Or.inr ⟨e, he, (extGuard_eq_true e).mpr ⟨h1, h2⟩, rfl⟩

/-- Witness for the amended C3 at a concrete configuration. -/
theorem C3_amended_extend_contribution_witness :
    ("eslint-config-airbnb" ++ "@latest") ∈ getModulesList
      ⟨[], [], ⟨2018, none, false⟩, [], ExtendsVal.multi ["airbnb"], none⟩ true :=
  (C3_amended_extend_contribution.1
    ⟨[], [], ⟨2018, none, false⟩, [], ExtendsVal.multi ["airbnb"], none⟩
    ["airbnb"] "airbnb" true rfl (by decide)).mpr ⟨by decide, by decide⟩

/-! ## Config serializer (src/lib/config-file.js) -/

/-- The part of the path after the last slash. -/
def basenameOf (p : String) : String :=
  ⟨(p.data.reverse.takeWhile (fun c => !(c == '/'))).reverse⟩

/-- Node `path.extname`: the substring of the basename from its last dot,
empty when there is no dot or the only dot leads the basename. -/
def extname (p : String) : String :=
  let b := (basenameOf p).data
  let afterRev := b.reverse.takeWhile (fun c => !(c == '.'))
  if afterRev.length = b.length then ""
  else if b.length - afterRev.length - 1 = 0 then ""
  else ⟨b.drop (b.length - afterRev.length - 1)⟩

/-- The comparator handed to the stable stringifier:
`a.key > b.key ? 1 : -1`, a plain lexicographic string comparison. -/
def sortByKey (a b : String × RuleVal) : Int :=
  if a.1 > b.1 then 1 else -1

/-- The ordering induced by the comparator: `sortByKey a b ≤ 0`. -/
def jsonCmpLe (a b : String × RuleVal) : Prop := sortByKey a b ≤ 0

instance : DecidableRel jsonCmpLe :=
  fun a b => inferInstanceAs (Decidable (sortByKey a b ≤ 0))

/-- The observable effect of a successful serializer call: which dumper ran,
with which options, on which entry order. -/
inductive WriteOut where
  | jsonOut (space : Nat) (pairs : List (String × RuleVal))
  | yamlOut (sortKeys : Bool) (pairs : List (String × RuleVal))

/-- Modelled from the spec: the external stable stringifier
(json-stable-stringify) emits the object entries in the order produced by
sorting with the supplied comparator; the embedding records that order and
the indentation option the source passes (`space: 4`). -/
def writeJSONConfigFile (config : List (String × RuleVal)) : WriteOut :=
  .jsonOut 4 (List.insertionSort jsonCmpLe config)

/-- Modelled from the spec: the YAML dumper is invoked with `sortKeys: true`;
the embedding records that option. -/
def writeYAMLConfigFile (config : List (String × RuleVal)) : WriteOut :=
  .yamlOut true config

/-- `write`: dispatch on the file extension; unknown extensions throw before
any file is touched.  (The diagnostic in the source carries an apostrophe,
elided here.) -/
def write (config : List (String × RuleVal)) (filePath : String) :
    Except String WriteOut :=
  match extname filePath with
  | ".json" => .ok (writeJSONConfigFile config)
  | ".yaml" => .ok (writeYAMLConfigFile config)
  | ".yml" => .ok (writeYAMLConfigFile config)
  | _ => .error "Cannot write to unknown file type."

theorem jsonCmpLe_iff (a b : String × RuleVal) : jsonCmpLe a b ↔ a.1 ≤ b.1 := by
  unfold jsonCmpLe sortByKey
  by_cases h : a.1 > b.1
  · rw [if_pos h]
    exact iff_of_false (by norm_num) (not_le.mpr h)
  · rw [if_neg h]
    exact iff_of_true (by norm_num) (le_of_not_lt h)

theorem sorted_stringify (cfg : List (String × RuleVal)) :
    List.Sorted jsonCmpLe (List.insertionSort jsonCmpLe cfg) := by
  haveI : IsTotal (String × RuleVal) jsonCmpLe :=
    ⟨fun a b => by
      rcases le_total a.1 b.1 with h | h
      · exact Or.inl ((jsonCmpLe_iff a b).mpr h)
      · exact Or.inr ((jsonCmpLe_iff b a).mpr h)⟩
  haveI : IsTrans (String × RuleVal) jsonCmpLe :=
    ⟨fun a b c hab hbc =>
      (jsonCmpLe_iff a c).mpr (le_trans ((jsonCmpLe_iff a b).mp hab) ((jsonCmpLe_iff b c).mp hbc))⟩
  exact List.sorted_insertionSort jsonCmpLe cfg

/-- C6: `.json` yields the 4-space stable stringifier over the
comparator-sorted entries whose key order is plain lexicographic,
`.yaml`/`.yml` yield the key-sorting YAML dumper, and every other
extension raises the unknown-file-type error with no write performed
(a write succeeds iff the extension is one of the three). -/
theorem C6_serializer_dispatch :
    (∀ (cfg : List (String × RuleVal)) (p : String),
      (extname p = ".json" →
        write cfg p = .ok (.jsonOut 4 (List.insertionSort jsonCmpLe cfg))
        ∧ ((List.insertionSort jsonCmpLe cfg).map Prod.fst).Pairwise (· ≤ ·)
        ∧ List.Perm (List.insertionSort jsonCmpLe cfg) cfg)
      ∧ ((extname p = ".yaml" ∨ extname p = ".yml") →
          write cfg p = .ok (.yamlOut true cfg))
      ∧ (extname p ∉ ([".json", ".yaml", ".yml"] : List String) →
          write cfg p = .error "Cannot write to unknown file type.")
      ∧ ((∃ o, write cfg p = Except.ok o) ↔
          extname p ∈ ([".json", ".yaml", ".yml"] : List String)))
    ∧ (∀ a b : String × RuleVal,
        (sortByKey a b = 1 ↔ b.1 < a.1) ∧ (sortByKey a b = -1 ↔ ¬b.1 < a.1)) := by
  constructor
  · intro cfg p
    refine ⟨?_, ?_, ?_, ?_⟩
    · intro h
      refine ⟨?_, ?_, ?_⟩
      · unfold write
        rw [h]
        rfl
      · have hs := sorted_stringify cfg
        rw [List.pairwise_map]
        exact hs.imp (fun hab => (jsonCmpLe_iff _ _).mp hab)
      · exact List.perm_insertionSort jsonCmpLe cfg
    · rintro (h | h) <;> (unfold write; rw [h]; rfl)
    · intro h
      unfold write
      split <;> simp_all
    · constructor
      · rintro ⟨o, ho⟩
        unfold write at ho
        split at ho <;> simp_all
      · intro hm
        simp only [List.mem_cons, List.not_mem_nil, or_false] at hm
        rcases hm with h | h | h <;> exact ⟨_, by unfold write; rw [h]; rfl⟩
  · intro a b
    unfold sortByKey
    by_cases h : a.1 > b.1
    · rw [if_pos h]
      exact ⟨iff_of_true rfl h, iff_of_false (by norm_num) (by simpa using h)⟩
    · rw [if_neg h]
      exact ⟨iff_of_false (by norm_num) h, iff_of_true rfl (by simpa using h)⟩

/-- Witness for C6 at concrete configurations and paths. -/
theorem C6_serializer_dispatch_witness :
    write [("b", RuleVal.str "x"), ("a", RuleVal.str "y")] "./.eslintrc.json" =
      .ok (.jsonOut 4 (List.insertionSort jsonCmpLe
        [("b", RuleVal.str "x"), ("a", RuleVal.str "y")]))
    ∧ write [] "conf.yaml" = .ok (.yamlOut true [])
    ∧ write [] "./.prettierrc.yml" = .ok (.yamlOut true [])
    ∧ write [] "file.txt" = .error "Cannot write to unknown file type." :=
  ⟨((C6_serializer_dispatch.1
      [("b", RuleVal.str "x"), ("a", RuleVal.str "y")] "./.eslintrc.json").1 (by decide)).1,
   (C6_serializer_dispatch.1 [] "conf.yaml").2.1 (Or.inl (by decide)),
   (C6_serializer_dispatch.1 [] "./.prettierrc.yml").2.1 (Or.inr (by decide)),
   (C6_serializer_dispatch.1 [] "file.txt").2.2.1 (by decide)⟩

/-! ## IDE watch-rule generator (src/unnamed/part_000, class Watch)

The workspace document is modelled with the shape the watcher code relies
on: a `<project>` root whose children are component elements, whose children
in turn are leaf elements (the `<scope .../>` entries live there).  The
cheerio selector `[name="X"]` matches either level; removal prunes matches
at both levels, appends go to the matched components. -/

/-- A childless element (e.g. a `<scope>` entry). -/
structure XLeaf where
  tag : String
  attrs : List (String × String)
deriving DecidableEq

/-- A component element under the project root. -/
structure XComp where
  tag : String
  attrs : List (String × String)
  kids : List XLeaf
deriving DecidableEq

/-- The workspace document: the project root and its components. -/
structure XDoc where
  rootTag : String
  comps : List XComp
deriving DecidableEq

/-- The value of the `name` attribute, when present. -/
def nameAttr (attrs : List (String × String)) : Option String :=
  attrs.lookup "name"

/-- Does the leaf match the selector `[name="n"]`? -/
def leafNamed (n : String) (x : XLeaf) : Bool := nameAttr x.attrs == some n

/-- Does the component match the selector `[name="n"]`? -/
def compNamed (n : String) (c : XComp) : Bool := nameAttr c.attrs == some n

/-- Concatenation of a list of lists. -/
def flattenL {α : Type} : List (List α) → List α
  | [] => []
  | x :: xs => x ++ flattenL xs

/-- All leaf elements of the document matching `[name="n"]`. -/
def leavesNamed (d : XDoc) (n : String) : List XLeaf :=
  flattenL (d.comps.map (fun c => c.kids.filter (leafNamed n)))

/-- `$('[name="n"]').length`: matches at both levels. -/
def countByName (d : XDoc) (n : String) : Nat :=
  (d.comps.filter (compNamed n)).length + (leavesNamed d n).length

/-- `$('[name="n"]').remove()`: drop every matching component (with its
children) and every matching leaf. -/
def removeByName (d : XDoc) (n : String) : XDoc :=
  ⟨d.rootTag,
   (d.comps.filter (fun c => !(compNamed n c))).map
     (fun c => { c with kids := c.kids.filter (fun x => !(leafNamed n x)) })⟩

/-- `$('[name="n"]').append(new)`: append the fresh leaves to every matching
component. -/
def appendToName (d : XDoc) (n : String) (new : List XLeaf) : XDoc :=
  ⟨d.rootTag,
   d.comps.map (fun c => if compNamed n c then { c with kids := c.kids ++ new } else c)⟩

/-- The empty scopes container the code creates when none exists. -/
def nsmComponent : XComp := ⟨"component", [("name", "NamedScopeManager")], []⟩

/-- First half of `cleanNamedScope`: create the container under the project
root when no element carries the name. -/
def ensureContainer (d : XDoc) : XDoc :=
  if countByName d "NamedScopeManager" = 0 then
    { d with comps := d.comps ++ [nsmComponent] }
  else d

/-- The fixed file-type to scope-name table of the watcher. -/
def SCOPENAME : List (String × String) :=
  [("js", "prettier-js"), ("scss", "prettier-scss"),
   ("md", "prettier-md"), ("vue", "prettier-vue")]

/-- The scope names of the fixed table. -/
def scopeNames : List String := SCOPENAME.map Prod.snd

/-- One iteration of the removal loop of `cleanNamedScope`:
`if ($(selector).length > 0) $(selector).remove()`. -/
def cleanStep (acc : XDoc) (kv : String × String) : XDoc :=
  if 0 < countByName acc kv.2 then removeByName acc kv.2 else acc

/-- `cleanNamedScope`: ensure the container, then for EVERY key of the fixed
table remove any element named with its scope name. -/
def cleanNamedScope (d : XDoc) : XDoc :=
  SCOPENAME.foldl cleanStep (ensureContainer d)

/-- The per-file-type watch configuration handed to the watcher. -/
structure TypeConf where
  rule : List String
  ruleDirection : Bool
deriving DecidableEq

/-- `normalizedConfig`: drop every file-type token absent from the fixed
table (the source logs an error and deletes the entry). -/
def normalizedConfig (cfg : List (String × TypeConf)) : List (String × TypeConf) :=
  cfg.filter (fun kv => (SCOPENAME.lookup kv.1).isSome)

/-- The scope name attached to a (valid) file-type token. -/
def scopeNameOf (k : String) : String := (SCOPENAME.lookup k).getD ""

/-- JS `Array.prototype.join`. -/
def joinWith (sep : String) : List String → String
  | [] => ""
  | [x] => x
  | x :: xs => x ++ sep ++ joinWith sep xs

/-- Strip every trailing slash (the `while` loop of genScopes). -/
def stripTrailing (s : String) : String :=
  ⟨(s.data.reverse.dropWhile (fun c => c == '/')).reverse⟩

/-- One term of the generated pattern for one user rule. -/
def genScopeTerm (projectName : String) (ruleDirection : Bool) (r : String) : String :=
  let neg := if ruleDirection then "" else "!"
  if r.data.getLast? == some '/' then
    neg ++ "file[" ++ projectName ++ "]:" ++ stripTrailing r ++ "//*"
  else
    neg ++ "file:" ++ r

/-- The boolean path-pattern of `genScopes`: the three negated default
exclusions joined with `&&` for an empty rule list, otherwise the per-rule
terms joined with `||` (include direction) or negated and joined with `&&`
(exclude direction). -/
def genScopePattern (projectName : String) (ruleDirection : Bool) (rule : List String) :
    String :=
  if rule.isEmpty then
    joinWith "&&"
      ["!file[" ++ projectName ++ "]:node_modules//*",
       "!file[" ++ projectName ++ "]:.git//*",
       "!file[" ++ projectName ++ "]:.svn//*"]
  else
    joinWith (if ruleDirection then "||" else "&&")
      (rule.map (genScopeTerm projectName ruleDirection))

/-- The `<scope name=... pattern=... />` element `genScopes` emits. -/
def genScopes (scopeName : String) (ruleDirection : Bool) (rule : List String)
    (projectName : String) : XLeaf :=
  ⟨"scope", [("name", scopeName), ("pattern", genScopePattern projectName ruleDirection rule)]⟩

/-- The scope fragments of one run, in configuration order. -/
def runScopes (cfg : List (String × TypeConf)) (projectName : String) : List XLeaf :=
  (normalizedConfig cfg).map
    (fun kv => genScopes (scopeNameOf kv.1) kv.2.ruleDirection kv.2.rule projectName)

/-- `addRuletoWorkspace`: generate the fragments for the run, clean the
document, and append the fragments to the scopes container. -/
def addRuletoWorkspace (d : XDoc) (cfg : List (String × TypeConf)) (projectName : String) :
    XDoc :=
  appendToName (cleanNamedScope d) "NamedScopeManager" (runScopes cfg projectName)

/-- C8: for an empty rule list the generated pattern is the conjunction,
joined with `&&`, of exactly the three negated default exclusions
(project node_modules, .git, .svn), never a disjunction. -/
theorem C8_empty_rule_pattern (p : String) (direction : Bool) :
    genScopePattern p direction [] =
      ("!file[" ++ p ++ "]:node_modules//*") ++ "&&" ++
        (("!file[" ++ p ++ "]:.git//*") ++ "&&" ++ ("!file[" ++ p ++ "]:.svn//*")) := by
  show joinWith "&&" _ = _
  simp only [joinWith]

theorem scopeKeyCases (k : String) (h : (SCOPENAME.lookup k).isSome = true) :
    k = "js" ∨ k = "scss" ∨ k = "md" ∨ k = "vue" := by
  by_cases h1 : k = "js"
  · exact Or.inl h1
  by_cases h2 : k = "scss"
  · exact Or.inr (Or.inl h2)
  by_cases h3 : k = "md"
  · exact Or.inr (Or.inr (Or.inl h3))
  by_cases h4 : k = "vue"
  · exact Or.inr (Or.inr (Or.inr h4))
  exfalso
  have e1 : (k == "js") = false := beq_eq_false_iff_ne.mpr h1
  have e2 : (k == "scss") = false := beq_eq_false_iff_ne.mpr h2
  have e3 : (k == "md") = false := beq_eq_false_iff_ne.mpr h3
  have e4 : (k == "vue") = false := beq_eq_false_iff_ne.mpr h4
  simp [SCOPENAME, List.lookup, e1, e2, e3, e4] at h

theorem scopeNameOf_mem (k : String) (h : (SCOPENAME.lookup k).isSome = true) :
    scopeNameOf k ∈ scopeNames := by
  rcases scopeKeyCases k h with rfl | rfl | rfl | rfl <;> decide

theorem compNamed_update (s : String) (c : XComp) (k : List XLeaf) :
    compNamed s { c with kids := k } = compNamed s c := rfl

theorem leafNamed_false_of_ne {n m : String} (x : XLeaf) (hx : leafNamed n x = true)
    (h : n ≠ m) : leafNamed m x = false := by
  unfold leafNamed at hx ⊢
  have : nameAttr x.attrs = some n := by simpa using hx
  rw [this]
  exact beq_eq_false_iff_ne.mpr (fun hc => h (Option.some.inj hc))

theorem filter_not_m_then_n (kids : List XLeaf) (m n : String) (h : n ≠ m) :
    (kids.filter (fun x => !(leafNamed m x))).filter (leafNamed n) =
      kids.filter (leafNamed n) := by
  induction kids with
  | nil => rfl
  | cons x xs ih =>
    by_cases hn : leafNamed n x
    · have hm : leafNamed m x = false := leafNamed_false_of_ne x hn h
      simp [List.filter_cons, hn, hm, ih]
    · by_cases hm : leafNamed m x <;>
        simp [List.filter_cons, hn, hm, ih]

theorem flattenL_append {α : Type} (a b : List (List α)) :
    flattenL (a ++ b) = flattenL a ++ flattenL b := by
  induction a with
  | nil => rfl
  | cons x xs ih => simp [flattenL, ih]

theorem leavesNamed_ensureContainer (d : XDoc) (n : String) :
    leavesNamed (ensureContainer d) n = leavesNamed d n := by
  unfold ensureContainer
  split
  · show leavesNamed ⟨d.rootTag, d.comps ++ [nsmComponent]⟩ n = _
    unfold leavesNamed
    simp [List.map_append, flattenL_append, nsmComponent, flattenL]
  · rfl

theorem leavesNamed_removeByName (d : XDoc) (m n : String)
    (hc : ∀ c ∈ d.comps, compNamed m c = false) (hnm : n ≠ m) :
    leavesNamed (removeByName d m) n = leavesNamed d n := by
  unfold leavesNamed removeByName
  rw [List.filter_eq_self.mpr (fun c hcm => by simp [hc c hcm])]
  rw [List.map_map]
  apply congrArg
  apply List.map_congr_left
  intro c _
  exact filter_not_m_then_n c.kids m n hnm

theorem leavesNamed_appendToName (d : XDoc) (m n : String) (new : List XLeaf)
    (hnew : new.filter (leafNamed n) = []) :
    leavesNamed (appendToName d m new) n = leavesNamed d n := by
  unfold leavesNamed appendToName
  rw [List.map_map]
  apply congrArg
  apply List.map_congr_left
  intro c _
  by_cases hcm : compNamed m c
  · simp [hcm, List.filter_append, hnew]
  · simp [hcm]

theorem comps_removeByName_pres (d : XDoc) (m s : String)
    (h : ∀ c ∈ d.comps, compNamed s c = false) :
    ∀ c ∈ (removeByName d m).comps, compNamed s c = false := by
  intro c hc
  unfold removeByName at hc
  rcases List.mem_map.mp hc with ⟨c0, hc0, rfl⟩
  rw [compNamed_update]
  exact h c0 (List.mem_of_mem_filter hc0)

theorem comps_ensureContainer_pres (d : XDoc) (s : String) (hs : s ∈ scopeNames)
    (h : ∀ c ∈ d.comps, compNamed s c = false) :
    ∀ c ∈ (ensureContainer d).comps, compNamed s c = false := by
  unfold ensureContainer
  split
  · intro c hc
    rcases List.mem_append.mp hc with hc | hc
    · exact h c hc
    · have hce : c = nsmComponent := by simpa using hc
      subst hce
      have hall : ∀ s2 ∈ scopeNames, compNamed s2 nsmComponent = false := by decide
      exact hall s hs
  · exact h

theorem leavesNamed_cleanFold (L : List (String × String)) (acc : XDoc) (n : String)
    (hL : ∀ kv ∈ L, kv.2 ∈ scopeNames)
    (hacc : ∀ c ∈ acc.comps, ∀ s ∈ scopeNames, compNamed s c = false)
    (hn : n ∉ scopeNames) :
    leavesNamed (L.foldl cleanStep acc) n = leavesNamed acc n
    ∧ ∀ c ∈ (L.foldl cleanStep acc).comps,
        ∀ s ∈ scopeNames, compNamed s c = false := by
  induction L generalizing acc with
  | nil => exact ⟨rfl, hacc⟩
  | cons kv rest ih =>
    have hkv : kv.2 ∈ scopeNames := hL kv (List.mem_cons_self kv rest)
    have hnm : n ≠ kv.2 := fun he => hn (he ▸ hkv)
    have hstep : leavesNamed (cleanStep acc kv) n = leavesNamed acc n := by
      unfold cleanStep
      split
      · exact leavesNamed_removeByName acc kv.2 n (fun c hc => hacc c hc kv.2 hkv) hnm
      · rfl
    have hstepc :
        ∀ c ∈ (cleanStep acc kv).comps, ∀ s ∈ scopeNames, compNamed s c = false := by
      unfold cleanStep
      split
      · intro c hc s hs
        exact comps_removeByName_pres acc kv.2 s (fun c2 hc2 => hacc c2 hc2 s hs) c hc
      · exact hacc
    have hres := ih _ (fun kv2 hkv2 => hL kv2 (List.mem_cons_of_mem kv hkv2)) hstepc
    exact ⟨hres.1.trans hstep, hres.2⟩

theorem runScopes_filter_nil (cfg : List (String × TypeConf)) (p n : String)
    (hn : n ∉ scopeNames) :
    (runScopes cfg p).filter (leafNamed n) = [] := by
  rw [List.filter_eq_nil_iff]
  intro x hx
  rcases List.mem_map.mp hx with ⟨kv, hkv, rfl⟩
  have hkv2 : kv ∈ cfg.filter (fun kv => (SCOPENAME.lookup kv.1).isSome) := hkv
  have hks : (SCOPENAME.lookup kv.1).isSome = true := by
    have h0 := List.of_mem_filter hkv2
    exact h0
  have hmem : scopeNameOf kv.1 ∈ scopeNames := scopeNameOf_mem kv.1 hks
  have hne : scopeNameOf kv.1 ≠ n := fun he => hn (he ▸ hmem)
  intro hcontra
  unfold genScopes leafNamed nameAttr at hcontra
  simp [List.lookup] at hcontra
  exact hne hcontra

/-- C1 counterexample: a document holding a scope entry for `md` merged with
a run containing only `js` loses the `md` entry, although `md` is not in the
current run and the claim requires it untouched. -/
theorem C1_counterexample :
    leavesNamed
      ⟨"project", [⟨"component", [("name", "NamedScopeManager")],
        [⟨"scope", [("name", "prettier-md"), ("pattern", "file:x")]⟩]⟩]⟩
      "prettier-md" =
      [⟨"scope", [("name", "prettier-md"), ("pattern", "file:x")]⟩]
    ∧ leavesNamed
        (addRuletoWorkspace
          ⟨"project", [⟨"component", [("name", "NamedScopeManager")],
            [⟨"scope", [("name", "prettier-md"), ("pattern", "file:x")]⟩]⟩]⟩
          [("js", ⟨[], true⟩)] "proj")
        "prettier-md" = [] := by
  constructor
  · decide
  · decide

/-- C1 (amended): the merge removes every scope entry named with ANY
file-type token of the fixed table, in or out of the current run; scope
entries whose names lie outside the fixed scope-name table are left
untouched (for documents whose components are not themselves named with
scope names). -/
theorem C1_amended_untouched (d : XDoc) (cfg : List (String × TypeConf)) (p n : String)
    (hcomps : ∀ c ∈ d.comps, ∀ s ∈ scopeNames, compNamed s c = false)
    (hn : n ∉ scopeNames) :
    leavesNamed (addRuletoWorkspace d cfg p) n = leavesNamed d n := by
  unfold addRuletoWorkspace
  rw [leavesNamed_appendToName _ _ _ _ (runScopes_filter_nil cfg p n hn)]
  unfold cleanNamedScope
  have hens : ∀ c ∈ (ensureContainer d).comps, ∀ s ∈ scopeNames, compNamed s c = false :=
    fun c hc s hs => comps_ensureContainer_pres d s hs (fun c2 hc2 => hcomps c2 hc2 s hs) c hc
  have hfold := leavesNamed_cleanFold SCOPENAME (ensureContainer d) n
    (by decide) hens hn
  rw [hfold.1, leavesNamed_ensureContainer]

/-- Witness for the amended C1 at a concrete document. -/
theorem C1_amended_untouched_witness :
    leavesNamed
      (addRuletoWorkspace
        ⟨"project", [⟨"component", [("name", "NamedScopeManager")],
          [⟨"scope", [("name", "mycustom"), ("pattern", "file:y")]⟩]⟩]⟩
        [("js", ⟨[], true⟩)] "proj")
      "mycustom" =
      leavesNamed
        ⟨"project", [⟨"component", [("name", "NamedScopeManager")],
          [⟨"scope", [("name", "mycustom"), ("pattern", "file:y")]⟩]⟩]⟩
        "mycustom" :=
  C1_amended_untouched
    ⟨"project", [⟨"component", [("name", "NamedScopeManager")],
      [⟨"scope", [("name", "mycustom"), ("pattern", "file:y")]⟩]⟩]⟩
    [("js", ⟨[], true⟩)] "proj" "mycustom" (by decide) (by decide)

/-! ### Counting lemmas for the idempotence claim -/

/-- The leaves-collector on a bare component list. -/
def leavesNamedL (cs : List XComp) (n : String) : List XLeaf :=
  flattenL (cs.map (fun c => c.kids.filter (leafNamed n)))

theorem leavesNamedL_cons (c : XComp) (cs : List XComp) (n : String) :
    leavesNamedL (c :: cs) n = c.kids.filter (leafNamed n) ++ leavesNamedL cs n := rfl

theorem flattenL_nils {α : Type} (L : List (List α)) (h : ∀ x ∈ L, x = []) :
    flattenL L = [] := by
  induction L with
  | nil => rfl
  | cons x xs ih =>
    rw [flattenL, h x (List.mem_cons_self x xs), ih (fun y hy => h y (List.mem_cons_of_mem x hy))]
    rfl

theorem leaves_remove_self (d : XDoc) (m : String) :
    leavesNamed (removeByName d m) m = [] := by
  unfold leavesNamed removeByName
  rw [List.map_map]
  apply flattenL_nils
  intro x hx
  rcases List.mem_map.mp hx with ⟨c, _, rfl⟩
  show (c.kids.filter (fun x => !(leafNamed m x))).filter (leafNamed m) = []
  rw [List.filter_filter]
  apply List.filter_eq_nil_iff.mpr
  intro a _
  cases hl : leafNamed m a <;> simp [hl]

theorem leaves_removeL_sublist (cs : List XComp) (m n : String) :
    List.Sublist
      (leavesNamedL ((cs.filter (fun c => !(compNamed m c))).map
        (fun c => { c with kids := c.kids.filter (fun x => !(leafNamed m x)) })) n)
      (leavesNamedL cs n) := by
  induction cs with
  | nil => exact List.Sublist.refl _
  | cons c cs ih =>
    rw [List.filter_cons]
    by_cases hc : compNamed m c
    · rw [if_neg (by simp [hc])]
      rw [leavesNamedL_cons]
      exact ih.trans (List.sublist_append_right _ _)
    · rw [if_pos (by simp [hc])]
      rw [List.map_cons, leavesNamedL_cons, leavesNamedL_cons]
      exact List.Sublist.append ((List.filter_sublist _).filter _) ih

theorem leaves_remove_sublist (d : XDoc) (m n : String) :
    List.Sublist (leavesNamed (removeByName d m) n) (leavesNamed d n) :=
  leaves_removeL_sublist d.comps m n

theorem leaves_appendL_length (cs : List XComp) (m n : String) (new : List XLeaf) :
    (leavesNamedL (cs.map
      (fun c => if compNamed m c then { c with kids := c.kids ++ new } else c)) n).length =
      (leavesNamedL cs n).length +
        (cs.filter (compNamed m)).length * (new.filter (leafNamed n)).length := by
  induction cs with
  | nil => simp [leavesNamedL, flattenL]
  | cons c cs ih =>
    rw [List.map_cons, leavesNamedL_cons, leavesNamedL_cons, List.filter_cons]
    by_cases hc : compNamed m c
    · rw [if_pos hc, if_pos (by simp [hc])]
      show ((c.kids ++ new).filter (leafNamed n) ++ _).length = _
      rw [List.filter_append, List.length_append, List.length_append, List.length_append, ih]
      rw [List.length_cons]
      ring
    · rw [if_neg hc, if_neg (by simp [hc])]
      show (c.kids.filter (leafNamed n) ++ _).length = _
      rw [List.length_append, List.length_append, ih]
      ring

theorem leaves_append_length (d : XDoc) (m n : String) (new : List XLeaf) :
    (leavesNamed (appendToName d m new) n).length =
      (leavesNamed d n).length +
        (d.comps.filter (compNamed m)).length * (new.filter (leafNamed n)).length :=
  leaves_appendL_length d.comps m n new

theorem compNamed_false_of_ne {n m : String} (c : XComp) (hx : compNamed n c = true)
    (h : n ≠ m) : compNamed m c = false := by
  unfold compNamed at hx ⊢
  have hs : nameAttr c.attrs = some n := by simpa using hx
  rw [hs]
  exact beq_eq_false_iff_ne.mpr (fun hc => h (Option.some.inj hc))

theorem comp_count_map_update (cs : List XComp) (g : XComp → XComp) (n : String)
    (hg : ∀ c, compNamed n (g c) = compNamed n c) :
    ((cs.map g).filter (compNamed n)).length = (cs.filter (compNamed n)).length := by
  induction cs with
  | nil => rfl
  | cons c cs ih =>
    rw [List.map_cons, List.filter_cons, List.filter_cons, hg c]
    by_cases hc : compNamed n c <;> simp [hc, ih]

theorem comp_filter_not_m_then_n (cs : List XComp) (m n : String) (h : n ≠ m) :
    (cs.filter (fun c => !(compNamed m c))).filter (compNamed n) =
      cs.filter (compNamed n) := by
  induction cs with
  | nil => rfl
  | cons c cs ih =>
    by_cases hn : compNamed n c
    · have hm : compNamed m c = false := compNamed_false_of_ne c hn h
      simp [List.filter_cons, hn, hm, ih]
    · by_cases hm : compNamed m c <;> simp [List.filter_cons, hn, hm, ih]

theorem comp_count_remove (d : XDoc) (m n : String) (h : n ≠ m) :
    ((removeByName d m).comps.filter (compNamed n)).length =
      (d.comps.filter (compNamed n)).length := by
  show (((d.comps.filter (fun c => !(compNamed m c))).map _).filter (compNamed n)).length = _
  rw [comp_count_map_update _ _ _ (fun c => compNamed_update n c _)]
  rw [comp_filter_not_m_then_n d.comps m n h]

theorem comp_count_append (d : XDoc) (m n : String) (new : List XLeaf) :
    ((appendToName d m new).comps.filter (compNamed n)).length =
      (d.comps.filter (compNamed n)).length := by
  apply comp_count_map_update
  intro c
  by_cases hc : compNamed m c <;> simp [hc, compNamed_update]

theorem ensure_nsm_counts (d : XDoc)
    (h1 : (leavesNamed d "NamedScopeManager").length = 0)
    (h2 : (d.comps.filter (compNamed "NamedScopeManager")).length ≤ 1) :
    ((ensureContainer d).comps.filter (compNamed "NamedScopeManager")).length = 1
    ∧ (leavesNamed (ensureContainer d) "NamedScopeManager").length = 0 := by
  have hl := leavesNamed_ensureContainer d "NamedScopeManager"
  unfold ensureContainer at hl ⊢
  by_cases hc : countByName d "NamedScopeManager" = 0
  · rw [if_pos hc] at hl ⊢
    constructor
    · show ((d.comps ++ [nsmComponent]).filter (compNamed "NamedScopeManager")).length = 1
      rw [List.filter_append, List.length_append]
      have hcomp0 : (d.comps.filter (compNamed "NamedScopeManager")).length = 0 := by
        unfold countByName at hc
        omega
      have hone : (([nsmComponent] : List XComp).filter
          (compNamed "NamedScopeManager")).length = 1 := by decide
      omega
    · rw [hl]
      exact h1
  · rw [if_neg hc] at hl ⊢
    refine ⟨?_, h1⟩
    unfold countByName at hc
    omega

theorem fold_leaves_le (L : List (String × String)) (acc : XDoc) (v : String) :
    (leavesNamed (L.foldl cleanStep acc) v).length ≤ (leavesNamed acc v).length := by
  induction L generalizing acc with
  | nil => exact le_refl _
  | cons kv rest ih =>
    refine le_trans (ih _) ?_
    unfold cleanStep
    split
    · exact (leaves_remove_sublist acc kv.2 v).length_le
    · exact le_refl _

theorem fold_leaf_zero (L : List (String × String)) (acc : XDoc) (kv0 : String × String)
    (hmem : kv0 ∈ L) :
    (leavesNamed (L.foldl cleanStep acc) kv0.2).length = 0 := by
  induction L generalizing acc with
  | nil => cases hmem
  | cons kv rest ih =>
    rcases List.mem_cons.mp hmem with rfl | hm2
    · have h0 : (leavesNamed (cleanStep acc kv0) kv0.2).length = 0 := by
        unfold cleanStep
        split
        · rw [leaves_remove_self]
          rfl
        · rename_i h
          unfold countByName at h
          omega
      have hle := fold_leaves_le rest (cleanStep acc kv0) kv0.2
      show (leavesNamed (rest.foldl cleanStep (cleanStep acc kv0)) kv0.2).length = 0
      omega
    · exact ih _ hm2

theorem fold_comp_count (L : List (String × String)) (acc : XDoc) (n : String)
    (hn : ∀ kv ∈ L, n ≠ kv.2) :
    ((L.foldl cleanStep acc).comps.filter (compNamed n)).length =
      (acc.comps.filter (compNamed n)).length := by
  induction L generalizing acc with
  | nil => rfl
  | cons kv rest ih =>
    have hstep : ((cleanStep acc kv).comps.filter (compNamed n)).length =
        (acc.comps.filter (compNamed n)).length := by
      unfold cleanStep
      split
      · exact comp_count_remove acc kv.2 n (hn kv (List.mem_cons_self kv rest))
      · rfl
    rw [← hstep]
    exact ih _ (fun kv2 h2 => hn kv2 (List.mem_cons_of_mem kv h2))

theorem scopeNameOf_inj (k1 k2 : String) (h1 : (SCOPENAME.lookup k1).isSome = true)
    (h2 : (SCOPENAME.lookup k2).isSome = true) (he : scopeNameOf k1 = scopeNameOf k2) :
    k1 = k2 := by
  rcases scopeKeyCases k1 h1 with rfl | rfl | rfl | rfl <;>
    rcases scopeKeyCases k2 h2 with rfl | rfl | rfl | rfl <;>
    first
      | rfl
      | exact absurd he (by decide)

theorem leafNamed_genScopes (v sn : String) (dir : Bool) (rule : List String) (p : String) :
    leafNamed v (genScopes sn dir rule p) = (sn == v) := rfl

theorem normalized_keys_isSome (cfg : List (String × TypeConf)) (k : String)
    (hk : k ∈ (normalizedConfig cfg).map Prod.fst) :
    (SCOPENAME.lookup k).isSome = true := by
  rcases List.mem_map.mp hk with ⟨kv, hkv, rfl⟩
  have hkv2 : kv ∈ cfg.filter (fun kv => (SCOPENAME.lookup kv.1).isSome) := hkv
  have h0 := List.of_mem_filter hkv2
  exact h0

theorem runScopes_count_one (cfg : List (String × TypeConf)) (p : String)
    (hnd : (cfg.map Prod.fst).Nodup) (kv : String × TypeConf)
    (hkv : kv ∈ normalizedConfig cfg) :
    ((runScopes cfg p).filter (leafNamed (scopeNameOf kv.1))).length = 1 := by
  unfold runScopes
  rw [← List.countP_eq_length_filter, List.countP_map]
  have hrw : List.countP
      ((fun x => leafNamed (scopeNameOf kv.1) x) ∘
        (fun kv2 => genScopes (scopeNameOf kv2.1) kv2.2.ruleDirection kv2.2.rule p))
      (normalizedConfig cfg) =
      List.countP ((fun x => x == scopeNameOf kv.1) ∘ (fun kv2 => scopeNameOf kv2.1))
        (normalizedConfig cfg) := by
    apply List.countP_congr
    intro kv2 _
    show (leafNamed (scopeNameOf kv.1) (genScopes (scopeNameOf kv2.1) _ _ _) = true) ↔ _
    rw [leafNamed_genScopes]
    exact Iff.rfl
  rw [hrw, ← List.countP_map, ← List.count_eq_countP]
  have hmm : (fun kv2 : String × TypeConf => scopeNameOf kv2.1) =
      (scopeNameOf ∘ Prod.fst) := rfl
  rw [hmm, ← List.map_map]
  have hkeys : ((normalizedConfig cfg).map Prod.fst).Nodup := by
    refine List.Nodup.sublist ?_ hnd
    exact (List.filter_sublist cfg).map Prod.fst
  have hinj : ∀ x ∈ (normalizedConfig cfg).map Prod.fst,
      ∀ y ∈ (normalizedConfig cfg).map Prod.fst, scopeNameOf x = scopeNameOf y → x = y :=
    fun x hx y hy he =>
      scopeNameOf_inj x y (normalized_keys_isSome cfg x hx) (normalized_keys_isSome cfg y hy) he
  have hnd2 : (((normalizedConfig cfg).map Prod.fst).map scopeNameOf).Nodup :=
    List.Nodup.map_on hinj hkeys
  have hvmem : scopeNameOf kv.1 ∈ ((normalizedConfig cfg).map Prod.fst).map scopeNameOf :=
    List.mem_map_of_mem scopeNameOf (List.mem_map_of_mem Prod.fst hkv)
  exact List.count_eq_one_of_mem hnd2 hvmem

/-- The well-formedness the amended idempotence claim needs: the document
holds at most one scopes container, and only as a component under the root
(the shape of every real workspace file). -/
def atMostOneContainer (d : XDoc) : Prop :=
  (leavesNamed d "NamedScopeManager").length = 0
  ∧ (d.comps.filter (compNamed "NamedScopeManager")).length ≤ 1

theorem nsm_not_scopeName : ∀ kv ∈ SCOPENAME, "NamedScopeManager" ≠ kv.2 := by decide

theorem merge_core (d : XDoc) (cfg : List (String × TypeConf)) (p : String)
    (h : atMostOneContainer d) (hnd : (cfg.map Prod.fst).Nodup) :
    atMostOneContainer (addRuletoWorkspace d cfg p)
    ∧ ∀ kv ∈ normalizedConfig cfg,
        (leavesNamed (addRuletoWorkspace d cfg p) (scopeNameOf kv.1)).length = 1 := by
  obtain ⟨h1, h2⟩ := h
  obtain ⟨hens1, hens2⟩ := ensure_nsm_counts d h1 h2
  have hcompclean :
      ((cleanNamedScope d).comps.filter (compNamed "NamedScopeManager")).length = 1 := by
    unfold cleanNamedScope
    rw [fold_comp_count SCOPENAME (ensureContainer d) _ nsm_not_scopeName]
    exact hens1
  have hleafcleanNSM :
      (leavesNamed (cleanNamedScope d) "NamedScopeManager").length = 0 := by
    have hle := fold_leaves_le SCOPENAME (ensureContainer d) "NamedScopeManager"
    unfold cleanNamedScope
    omega
  constructor
  · constructor
    · unfold addRuletoWorkspace
      rw [leaves_append_length]
      have hnew : ((runScopes cfg p).filter (leafNamed "NamedScopeManager")).length = 0 := by
        rw [runScopes_filter_nil cfg p _ (by decide)]
        rfl
      rw [hleafcleanNSM, hnew]
      simp
    · unfold addRuletoWorkspace
      rw [comp_count_append, hcompclean]
  · intro kv hkv
    unfold addRuletoWorkspace
    rw [leaves_append_length]
    have hkmem : (kv.1, scopeNameOf kv.1) ∈ SCOPENAME := by
      have hks : (SCOPENAME.lookup kv.1).isSome = true :=
        normalized_keys_isSome cfg kv.1 (List.mem_map_of_mem Prod.fst hkv)
      rcases scopeKeyCases kv.1 hks with hk | hk | hk | hk <;> rw [hk] <;> decide
    have hzero : (leavesNamed (cleanNamedScope d) (scopeNameOf kv.1)).length = 0 := by
      unfold cleanNamedScope
      exact fold_leaf_zero SCOPENAME (ensureContainer d) (kv.1, scopeNameOf kv.1) hkmem
    rw [hzero, hcompclean, runScopes_count_one cfg p hnd kv hkv]

/-- C2 counterexample: a workspace document carrying two scopes containers
holds TWO scope elements for the run's token after two successive merges of
the same run (the fragments are appended to every matched container), where
the claim demands exactly one for every workspace document. -/
theorem C2_counterexample :
    (leavesNamed
      (addRuletoWorkspace
        (addRuletoWorkspace
          ⟨"project", [⟨"component", [("name", "NamedScopeManager")], []⟩,
                       ⟨"component", [("name", "NamedScopeManager")], []⟩]⟩
          [("js", ⟨[], true⟩)] "proj")
        [("js", ⟨[], true⟩)] "proj")
      "prettier-js").length = 2 := by decide

/-- C2 (amended): for every workspace document holding at most one scopes
container (as a component), merging the same recognized, duplicate-free
file-type tokens is idempotent as claimed: after the first merge, and again
after the second, the document contains exactly one scope element per token
of the run, never two. -/
theorem C2_amended_idempotent (d : XDoc) (cfg : List (String × TypeConf)) (p : String)
    (h : atMostOneContainer d) (hnd : (cfg.map Prod.fst).Nodup) :
    ∀ kv ∈ normalizedConfig cfg,
      (leavesNamed (addRuletoWorkspace d cfg p) (scopeNameOf kv.1)).length = 1
      ∧ (leavesNamed (addRuletoWorkspace (addRuletoWorkspace d cfg p) cfg p)
          (scopeNameOf kv.1)).length = 1 := by
  obtain ⟨hinv1, hcount1⟩ := merge_core d cfg p h hnd
  obtain ⟨_, hcount2⟩ := merge_core (addRuletoWorkspace d cfg p) cfg p hinv1 hnd
  exact fun kv hkv => ⟨hcount1 kv hkv, hcount2 kv hkv⟩

/-- Witness for the amended C2 at a concrete single-container document. -/
theorem C2_amended_idempotent_witness :
    (leavesNamed
      (addRuletoWorkspace
        ⟨"project", [⟨"component", [("name", "NamedScopeManager")], []⟩]⟩
        [("js", ⟨[], true⟩)] "proj")
      (scopeNameOf "js")).length = 1
    ∧ (leavesNamed
        (addRuletoWorkspace
          (addRuletoWorkspace
            ⟨"project", [⟨"component", [("name", "NamedScopeManager")], []⟩]⟩
            [("js", ⟨[], true⟩)] "proj")
          [("js", ⟨[], true⟩)] "proj")
        (scopeNameOf "js")).length = 1 :=
  C2_amended_idempotent
    ⟨"project", [⟨"component", [("name", "NamedScopeManager")], []⟩]⟩
    [("js", ⟨[], true⟩)] "proj"
    ⟨by decide, by decide⟩ (by decide)
    ("js", ⟨[], true⟩) (by decide)

/-! ## Project discovery and the write refusal (getWSConfig / writeFile) -/

/-- Does a path (relative to the project root) match the glob
`.idea/*.iml`: directly inside `.idea`, not dot-led, ending in `.iml`. -/
def imlMatch (f : String) : Bool :=
  isPrefixOfB ".idea/".data f.data &&
  (let rest := f.data.drop 6
   !rest.isEmpty && !(rest.head? == some '.') && !(rest.contains '/') &&
     isPrefixOfB ".iml".data.reverse rest.reverse)

/-- `getWSConfig`: glob for the workspace file and the project descriptor;
succeed only when exactly one of each is found, otherwise return the falsy
refusal (modelled as `none`). -/
def getWSConfig (files : List String) : Option (String × String) :=
  let projectConfig := files.filter imlMatch
  let workspaceConfig := files.filter (fun f => f == ".idea/workspace.xml")
  if projectConfig.length = 1 ∧ workspaceConfig.length = 1 then
    some (projectConfig.headD "", workspaceConfig.headD "")
  else none

/-- `writeFile`: refuse (falsy result, no file actions) when discovery
failed, otherwise write the watcher-tasks file and the merged workspace
file.  The second component lists the paths written. -/
def writeFileW (files : List String) : Bool × List String :=
  match getWSConfig files with
  | none => (false, [])
  | some (_, wc) => (true, [".idea/watcherTasks.xml", wc])

/-- C9: discovery succeeds exactly when there is exactly one `.iml` match
and exactly one workspace file; on any other count the write operation
returns the falsy refusal and performs no file modification (the embedding
is a total function, so no exception is raised). -/
theorem C9_discovery_refusal (files : List String) :
    (getWSConfig files = none ↔
      ¬((files.filter imlMatch).length = 1
        ∧ (files.filter (fun f => f == ".idea/workspace.xml")).length = 1))
    ∧ (getWSConfig files = none → writeFileW files = (false, [])) := by
  constructor
  · show (if (files.filter imlMatch).length = 1
          ∧ (files.filter (fun f => f == ".idea/workspace.xml")).length = 1 then
        some ((files.filter imlMatch).headD "",
          (files.filter (fun f => f == ".idea/workspace.xml")).headD "")
      else none) = none ↔ _
    split
    · rename_i h
      exact iff_of_false (by simp) (fun hc => hc h)
    · rename_i h
      exact iff_of_true rfl h
  · intro h
    unfold writeFileW
    rw [h]

/-- Witness for C9: a root with two `.iml` files is refused with no writes. -/
theorem C9_discovery_refusal_witness :
    getWSConfig [".idea/a.iml", ".idea/b.iml", ".idea/workspace.xml"] = none
    ∧ writeFileW [".idea/a.iml", ".idea/b.iml", ".idea/workspace.xml"] = (false, []) :=
  ⟨(C9_discovery_refusal [".idea/a.iml", ".idea/b.iml", ".idea/workspace.xml"]).1.mpr
      (by decide),
   (C9_discovery_refusal [".idea/a.iml", ".idea/b.iml", ".idea/workspace.xml"]).2
      ((C9_discovery_refusal [".idea/a.iml", ".idea/b.iml", ".idea/workspace.xml"]).1.mpr
        (by decide))⟩
